import Mathlib

/-!
Verification of the FlashToken caches against their specification.

The two cache classes (`stable_split_for_text` / `FixedPrefixTokenCache` from
`flashtoken/fixed_prefix.py` and `AppendOnlyPieceTokenCache` from
`flashtoken/append_only_piece.py`) are embedded as pure functions over
`List Char` texts and `List Nat` token streams.  The underlying BPE encoder
(tiktoken) and its compiled pre-tokenization regex are external collaborators;
they are modelled as an abstract `Encoder` record of total functions, and the
contracts the spec places on the encoder become explicit hypotheses.
-/

namespace FlashToken

/-- Character span of one pre-tokenization piece: a half-open range
`[start, end)` into a text, as produced by `regex.finditer`. -/
abbrev Span := Nat × Nat

/-- Model of the external encoder adapter: the compiled pre-tokenization
regex (`finditer` returns the ordered spans of its non-overlapping matches
over a text) together with the tiktoken encoding operations used by the
caches.  All operations are opaque to the cache code. -/
structure Encoder where
  finditer : List Char → List Span
  encode_single_piece : List Char → List Nat
  encode_ordinary : List Char → List Nat
  encode_with_unstable : List Char → List Nat
  decode : List Nat → List Char

/-- Python slicing `t[a:b]` on character lists. -/
def slice (t : List Char) (a b : Nat) : List Char := (t.drop a).take (b - a)

/-- The tokens the cache computes for the piece spanning `m` inside text `t`:
`encoding._encode_single_piece(m.group(0))`. -/
def encPiece (enc : Encoder) (t : List Char) (m : Span) : List Nat :=
  enc.encode_single_piece (slice t m.1 m.2)

/-- Result record of `stable_split_for_text` (class `StableSplit`). -/
structure StableSplit where
  stable_tokens : List Nat
  stable_text : List Char
  unstable_text : List Char
deriving DecidableEq

/-- The `ValueError` message raised by `stable_split_for_text`. -/
def stableSplitMismatchMsg : String :=
  "Stable token prefix does not decode to a string prefix of the input text."

/-- The `ValueError` message raised by `AppendOnlyPieceTokenCache.__init__`. -/
def invalidBacktrackMsg : String :=
  "backtrack_pieces must be >= 1"

/-- `stable_split_for_text(encoding, text)` from `fixed_prefix.py`:
obtain the stable token prefix via `encode_with_unstable`, decode it, fail
when the decoded text is not a character prefix of the input, otherwise
return the split. -/
def stable_split_for_text (enc : Encoder) (text : List Char) :
    Except String StableSplit :=
  let stable_tokens := enc.encode_with_unstable text
  let stable_text := enc.decode stable_tokens
  if stable_text.isPrefixOf text then
    Except.ok { stable_tokens := stable_tokens, stable_text := stable_text,
                unstable_text := text.drop stable_text.length }
  else
    Except.error stableSplitMismatchMsg

/-- State of a `FixedPrefixTokenCache`: the original template text and the
stored stable split (fields `_prefix` and `_split`). -/
structure FixedPrefixTokenCache where
  prefix_text : List Char
  split : StableSplit
deriving DecidableEq

/-- `FixedPrefixTokenCache.__init__`: construction computes and stores the
stable split of the template text; the `ValueError` of the split propagates. -/
def FixedPrefixTokenCache.make (enc : Encoder) (p : List Char) :
    Except String FixedPrefixTokenCache :=
  (stable_split_for_text enc p).map
    (fun sp => { prefix_text := p, split := sp })

/-- `FixedPrefixTokenCache.encode_ordinary_tail`. -/
def FixedPrefixTokenCache.encode_ordinary_tail (enc : Encoder)
    (c : FixedPrefixTokenCache) (suffix : List Char) : List Nat :=
  enc.encode_ordinary (c.split.unstable_text ++ suffix)

/-- `FixedPrefixTokenCache.encode_ordinary`. -/
def FixedPrefixTokenCache.encode_ordinary (enc : Encoder)
    (c : FixedPrefixTokenCache) (suffix : List Char) : List Nat :=
  c.split.stable_tokens ++ FixedPrefixTokenCache.encode_ordinary_tail enc c suffix

/-- The delta returned by `append_ordinary` (class `TokenDelta`). -/
structure TokenDelta where
  rollback_tokens : Nat
  tokens_to_append : List Nat
deriving DecidableEq

/-- Mutable state of an `AppendOnlyPieceTokenCache` (fields `_text`,
`_pieces`, `_piece_tokens`, `_tokens`, `_backtrack_pieces`; the encoding and
the compiled pattern are passed separately as the `Encoder`). -/
structure CacheState where
  text : List Char
  pieces : List Span
  piece_tokens : List (List Nat)
  tokens : List Nat
  backtrack_pieces : Nat
deriving DecidableEq

/-- The per-match accumulation loop shared by `reset` and the tail loop of
`append_ordinary`: for each match span, record the (possibly shifted) span,
its piece tokens, and extend the flat token accumulator. -/
def pieceFold (sf : Span → Span) (tf : Span → List Nat) (ms : List Span)
    (acc : List Span × List (List Nat) × List Nat) :
    List Span × List (List Nat) × List Nat :=
  ms.foldl
    (fun a m =>
      let ptoks := tf m
      (a.1 ++ [sf m], a.2.1 ++ [ptoks], a.2.2 ++ ptoks))
    acc

/-- `AppendOnlyPieceTokenCache.reset(text)`: clear the piece state and rebuild
it from the regex matches over `text`, piece by piece. -/
def AppendOnlyPieceTokenCache.reset (enc : Encoder) (k : Nat)
    (text : List Char) : CacheState :=
  let r := pieceFold (fun m => m) (encPiece enc text) (enc.finditer text)
    ([], [], [])
  { text := text, pieces := r.1, piece_tokens := r.2.1, tokens := r.2.2,
    backtrack_pieces := k }

/-- `AppendOnlyPieceTokenCache.__init__(encoding, initial_text,
backtrack_pieces)`: reject `backtrack_pieces < 1`, otherwise initialize via
`reset(initial_text)`. -/
def AppendOnlyPieceTokenCache.mk (enc : Encoder) (initial_text : List Char)
    (k : Nat) : Except String CacheState :=
  if k < 1 then Except.error invalidBacktrackMsg
  else Except.ok (AppendOnlyPieceTokenCache.reset enc k initial_text)

/-- `AppendOnlyPieceTokenCache.append_ordinary(delta)`: the hot path.
Returns the post-call cache state paired with the returned `TokenDelta`.
`del self._tokens[-rollback:]` (guarded by `if rollback:`) is
`tokens.take (tokens.length - rollback)` when `rollback` is nonzero.
`self._pieces[start_piece_index]` is total indexing in Python reachable
states (the constructor enforces `backtrack_pieces ≥ 1`, so
`start_piece_index < len(pieces)` in this branch); `getD` with a dummy
default renders it. -/
def AppendOnlyPieceTokenCache.append_ordinary (enc : Encoder)
    (st : CacheState) (delta : List Char) : CacheState × TokenDelta :=
  if delta = [] then
    (st, { rollback_tokens := 0, tokens_to_append := [] })
  else
    let prev_piece_count := st.pieces.length
    let prev_token_count := st.tokens.length
    let text' := st.text ++ delta
    if prev_piece_count = 0 then
      let st' := AppendOnlyPieceTokenCache.reset enc st.backtrack_pieces text'
      (st', { rollback_tokens := prev_token_count,
              tokens_to_append := st'.tokens })
    else
      let b := min st.backtrack_pieces prev_piece_count
      let start_piece_index := prev_piece_count - b
      let reprocess_start := (st.pieces.getD start_piece_index (0, 0)).1
      let old_tail_token_count :=
        ((st.piece_tokens.drop start_piece_index).map List.length).sum
      let rollback := old_tail_token_count
      let tokens1 :=
        if rollback = 0 then st.tokens
        else st.tokens.take (st.tokens.length - rollback)
      let tail_text := text'.drop reprocess_start
      let r := pieceFold
        (fun m => (reprocess_start + m.1, reprocess_start + m.2))
        (encPiece enc tail_text) (enc.finditer tail_text) ([], [], [])
      ({ text := text',
         pieces := st.pieces.take start_piece_index ++ r.1,
         piece_tokens := st.piece_tokens.take start_piece_index ++ r.2.1,
         tokens := tokens1 ++ r.2.2,
         backtrack_pieces := st.backtrack_pieces },
       { rollback_tokens := rollback, tokens_to_append := r.2.2 })

/-- One public mutating call on the append-only cache. -/
inductive Op where
  | doReset (t : List Char)
  | doAppend (d : List Char)

/-- Execute one public call against a cache state. -/
def runOp (enc : Encoder) (st : CacheState) : Op → CacheState
  | Op.doReset t => AppendOnlyPieceTokenCache.reset enc st.backtrack_pieces t
  | Op.doAppend d => (AppendOnlyPieceTokenCache.append_ordinary enc st d).1

/-- Execute a sequence of public calls. -/
def runOps (enc : Encoder) (st : CacheState) (ops : List Op) : CacheState :=
  ops.foldl (runOp enc) st

/-- Execute a sequence of appends (the delta workload of T3). -/
def runAppends (enc : Encoder) (st : CacheState) (ds : List (List Char)) :
    CacheState :=
  ds.foldl (fun s d => (AppendOnlyPieceTokenCache.append_ordinary enc s d).1) st

/-- `start_piece_index` as computed by the populated branch of
`append_ordinary` from the pre-call pieces. -/
def startIdx (k : Nat) (ps : List Span) : Nat := ps.length - min k ps.length

/-- `reprocess_start` as computed by the populated branch of
`append_ordinary` from the pre-call pieces. -/
def reprocessStart (k : Nat) (ps : List Span) : Nat :=
  (ps.getD (startIdx k ps) (0, 0)).1

/-- `rollback` as computed by the populated branch of `append_ordinary` from
the pre-call pieces and piece token lists. -/
def rollbackOf (k : Nat) (ps : List Span) (pts : List (List Nat)) : Nat :=
  ((pts.drop (startIdx k ps)).map List.length).sum

/-- The value produced by the populated branch of `append_ordinary`,
written in closed form (spans shifted by `reprocess_start`, piece tokens from
the tail slice, flat tokens truncated by `rollback` then extended). -/
def appendPopulated (enc : Encoder) (st : CacheState) (delta : List Char) :
    CacheState × TokenDelta :=
  let s := startIdx st.backtrack_pieces st.pieces
  let rp := reprocessStart st.backtrack_pieces st.pieces
  let rb := rollbackOf st.backtrack_pieces st.pieces st.piece_tokens
  let tail := (st.text ++ delta).drop rp
  let ms := enc.finditer tail
  let newToks := (ms.map (encPiece enc tail)).flatten
  ({ text := st.text ++ delta,
     pieces := st.pieces.take s ++ ms.map (fun m => (rp + m.1, rp + m.2)),
     piece_tokens := st.piece_tokens.take s ++ ms.map (encPiece enc tail),
     tokens := st.tokens.take (st.tokens.length - rb) ++ newToks,
     backtrack_pieces := st.backtrack_pieces },
   { rollback_tokens := rb, tokens_to_append := newToks })

/-- Well-formed pre-tokenizer spans (spec §3): every match of the regex is a
half-open character range lying inside the matched text. -/
def SpansWF (enc : Encoder) : Prop :=
  ∀ t : List Char, ∀ m ∈ enc.finditer t, m.1 ≤ m.2 ∧ m.2 ≤ t.length

/-- Encoder contract of spec §4.1 / the docstring of
`AppendOnlyPieceTokenCache`: `encode_ordinary` splits the text by the
pre-tokenization regex and BPE-encodes each piece independently. -/
def PiecewiseConsistent (enc : Encoder) : Prop :=
  ∀ t : List Char,
    enc.encode_ordinary t = ((enc.finditer t).map (encPiece enc t)).flatten

/-- Backtrack sufficiency at `k` (spec §4.4): on any append to a text the
regex currently segments into at least one piece, the segmentation of the
extended text keeps the pieces before `start_piece_index` and, from
`reprocess_start` onward, equals the segmentation of the tail slice shifted
by `reprocess_start`.  This is exactly the assumption the spec says the
incremental path depends on. -/
def AgreesAt (enc : Encoder) (k : Nat) : Prop :=
  ∀ text delta : List Char, delta ≠ [] → enc.finditer text ≠ [] →
    enc.finditer (text ++ delta)
      = (enc.finditer text).take (startIdx k (enc.finditer text))
        ++ (enc.finditer ((text ++ delta).drop
              (reprocessStart k (enc.finditer text)))).map
            (fun m => (reprocessStart k (enc.finditer text) + m.1,
                       reprocessStart k (enc.finditer text) + m.2))

/-- The strong representation invariant of the append-only cache: the stored
pieces are the cold segmentation of the stored text (P2), the piece token
lists are the per-piece encodings of the corresponding slices (§3 data
model), and the flat tokens are their concatenation (P1). -/
def StrongInv (enc : Encoder) (st : CacheState) : Prop :=
  st.pieces = enc.finditer st.text ∧
  st.piece_tokens = st.pieces.map (encPiece enc st.text) ∧
  st.tokens = st.piece_tokens.flatten

/-- Invariants P1 and P4 alone, which hold without any encoder assumption. -/
def WeakInv (st : CacheState) : Prop :=
  st.tokens = st.piece_tokens.flatten ∧
  st.pieces.length = st.piece_tokens.length

/-! Concrete encoders used to instantiate the encoder-contract hypotheses
and to refute over-general claims.  The real encoder (tiktoken plus its
regex) is an external collaborator, so any record satisfying, or violating,
the stated contracts is a legitimate instance. -/

/-- A benign pre-tokenizer: the whole nonempty text is a single piece. -/
def wholeFinditer (t : List Char) : List Span :=
  if t = [] then [] else [(0, t.length)]

/-- One token per character. -/
def charTokens (w : List Char) : List Nat := w.map Char.toNat

/-- Cold tokenization induced by a pre-tokenizer and a per-piece encoder:
segment, encode each piece, concatenate. -/
def piecewiseEncode (fi : List Char → List Span) (g : List Char → List Nat)
    (t : List Char) : List Nat :=
  ((fi t).map (fun m => g (slice t m.1 m.2))).flatten

/-- Benign witness encoder: whole-text pieces, character tokens, and an
`encode_ordinary` that is piecewise-consistent by construction. -/
def wholeEnc : Encoder :=
  { finditer := wholeFinditer,
    encode_single_piece := charTokens,
    encode_ordinary := piecewiseEncode wholeFinditer charTokens,
    encode_with_unstable := fun _ => [],
    decode := fun _ => [] }

/-- Toy encoder with a nontrivial honest stable split: one token per
character, `encode_with_unstable` withholds the last token, `decode` inverts
the per-character encoding. -/
def letterEnc : Encoder :=
  { finditer := wholeFinditer,
    encode_single_piece := charTokens,
    encode_ordinary := charTokens,
    encode_with_unstable := fun w => (charTokens w).take (w.length - 1),
    decode := fun ts => ts.map Char.ofNat }

/-- Adversarial encoder refuting C1 as stated: on the text `"aaa"`,
`encode_with_unstable` returns `[7]`, which is a token prefix of
`encode_ordinary` of every right extension and decodes to the character
prefix `"a"`, yet `encode_ordinary` is not split-compatible — texts of
length two are encoded specially. -/
def c1Enc : Encoder :=
  { finditer := fun _ => [],
    encode_single_piece := fun _ => [],
    encode_ordinary := fun w =>
      if w.length = 2 then [7, 7, 9] else List.replicate w.length 7,
    encode_with_unstable := fun w =>
      if w = ['a', 'a', 'a'] then [7] else [],
    decode := fun ts => List.replicate ts.length 'a' }

/-- Length of the first alternative in `alts` that is a nonempty string
prefix of `s` (ordered alternation, the leftmost-alternative rule of a
regex alternation). -/
def altMatch (alts : List (List Char)) (s : List Char) : Option Nat :=
  alts.findSome?
    (fun a => if a ≠ [] ∧ a.isPrefixOf s then some a.length else none)

/-- Left-to-right non-overlapping scan of `t` with ordered alternation
`alts` starting at position `i`; positions with no match are skipped.
`fuel` dominates the number of remaining characters. -/
def altScan (alts : List (List Char)) : Nat → List Char → Nat → List Span
  | 0, _, _ => []
  | fuel + 1, t, i =>
      if i < t.length then
        match altMatch alts (t.drop i) with
        | some n => (i, i + n) :: altScan alts fuel t (i + n)
        | none => altScan alts fuel t (i + 1)
      else []

/-- Pre-tokenizer induced by an ordered alternation. -/
def altFinditer (alts : List (List Char)) (t : List Char) : List Span :=
  altScan alts (t.length + 1) t 0

/-- One token per piece, injective on piece texts, so that different
segmentations of the same text produce different token streams. -/
def pieceNum (w : List Char) : List Nat :=
  [w.foldl (fun a c => a * 1000 + c.toNat) 1]

/-- The alternation `aba|a|b`: on `"ab"` it yields pieces `a`, `b`, but on
`"aba"` it yields the single piece `aba`, so appending `"a"` to `"ab"`
re-segments the text two pieces back — beyond `backtrack_pieces = 1`. -/
def badAlts : List (List Char) := [['a', 'b', 'a'], ['a'], ['b']]

/-- Adversarial but piecewise-consistent encoder whose pre-tokenizer
violates backtrack sufficiency at `backtrack_pieces = 1`. -/
def badEnc : Encoder :=
  { finditer := altFinditer badAlts,
    encode_single_piece := pieceNum,
    encode_ordinary := piecewiseEncode (altFinditer badAlts) pieceNum,
    encode_with_unstable := fun _ => [],
    decode := fun _ => [] }

/-- The cache built on `"ab"` with `backtrack_pieces = 1` over `badEnc`. -/
def badState0 : CacheState :=
  AppendOnlyPieceTokenCache.reset badEnc 1 ['a', 'b']

/-- `badState0` after `append_ordinary("a")`. -/
def badState1 : CacheState :=
  (AppendOnlyPieceTokenCache.append_ordinary badEnc badState0 ['a']).1

/-- The cache built on `"ab"` with `backtrack_pieces = 1` over `wholeEnc`. -/
def wState0 : CacheState :=
  AppendOnlyPieceTokenCache.reset wholeEnc 1 ['a', 'b']

/-- A mixed sequence of public calls used to exercise the invariants. -/
def wOps : List Op :=
  [Op.doAppend ['c'], Op.doReset ['x', 'y'], Op.doAppend ['z']]

/-- The stable split `letterEnc` produces on the text `"ab"`. -/
def c5sp : StableSplit :=
  { stable_tokens := [97], stable_text := ['a'], unstable_text := ['b'] }

/-- The fixed-prefix cache `c1Enc` yields on the text `"aaa"`. -/
def c1Cache : FixedPrefixTokenCache :=
  { prefix_text := ['a', 'a', 'a'],
    split := { stable_tokens := [7], stable_text := ['a'],
               unstable_text := ['a', 'a'] } }

/-- The fixed-prefix cache `letterEnc` yields on the text `"ab"`. -/
def c1wCache : FixedPrefixTokenCache :=
  { prefix_text := ['a', 'b'], split := c5sp }

theorem pieceFold_eq (sf : Span → Span) (tf : Span → List Nat)
    (ms : List Span) :
    ∀ (ps : List Span) (pts : List (List Nat)) (ts : List Nat),
      pieceFold sf tf ms (ps, pts, ts)
        = (ps ++ ms.map sf, pts ++ ms.map tf, ts ++ (ms.map tf).flatten) := by
  induction ms with
  | nil => intro ps pts ts; simp [pieceFold]
  | cons m ms ih =>
      intro ps pts ts
      show pieceFold sf tf ms (ps ++ [sf m], pts ++ [tf m], ts ++ tf m) = _
      rw [ih]
      simp [List.append_assoc]

theorem reset_text (enc : Encoder) (k : Nat) (t : List Char) :
    (AppendOnlyPieceTokenCache.reset enc k t).text = t := rfl

theorem reset_backtrack (enc : Encoder) (k : Nat) (t : List Char) :
    (AppendOnlyPieceTokenCache.reset enc k t).backtrack_pieces = k := rfl

theorem reset_pieces (enc : Encoder) (k : Nat) (t : List Char) :
    (AppendOnlyPieceTokenCache.reset enc k t).pieces = enc.finditer t := by
  simp [AppendOnlyPieceTokenCache.reset, pieceFold_eq]

theorem reset_piece_tokens (enc : Encoder) (k : Nat) (t : List Char) :
    (AppendOnlyPieceTokenCache.reset enc k t).piece_tokens
      = (enc.finditer t).map (encPiece enc t) := by
  simp [AppendOnlyPieceTokenCache.reset, pieceFold_eq]

theorem reset_tokens (enc : Encoder) (k : Nat) (t : List Char) :
    (AppendOnlyPieceTokenCache.reset enc k t).tokens
      = ((enc.finditer t).map (encPiece enc t)).flatten := by
  simp [AppendOnlyPieceTokenCache.reset, pieceFold_eq]

theorem append_empty_delta (enc : Encoder) (st : CacheState) :
    AppendOnlyPieceTokenCache.append_ordinary enc st []
      = (st, { rollback_tokens := 0, tokens_to_append := [] }) := rfl

theorem append_no_pieces (enc : Encoder) (st : CacheState) (delta : List Char)
    (hd : delta ≠ []) (hp : st.pieces = []) :
    AppendOnlyPieceTokenCache.append_ordinary enc st delta
      = (AppendOnlyPieceTokenCache.reset enc st.backtrack_pieces
           (st.text ++ delta),
         { rollback_tokens := st.tokens.length,
           tokens_to_append :=
             (AppendOnlyPieceTokenCache.reset enc st.backtrack_pieces
               (st.text ++ delta)).tokens }) := by
  simp [AppendOnlyPieceTokenCache.append_ordinary, hd, hp]

theorem append_populated (enc : Encoder) (st : CacheState) (delta : List Char)
    (hd : delta ≠ []) (hp : st.pieces ≠ []) :
    AppendOnlyPieceTokenCache.append_ordinary enc st delta
      = appendPopulated enc st delta := by
  have hlen : ¬ st.pieces.length = 0 := by
    simpa [List.length_eq_zero] using hp
  simp only [AppendOnlyPieceTokenCache.append_ordinary, appendPopulated,
    if_neg hd, if_neg hlen, pieceFold_eq, startIdx, reprocessStart, rollbackOf,
    List.nil_append]
  split
  · rename_i hrb
    rw [hrb, Nat.sub_zero, List.take_length]
  · rfl

theorem isPrefixOf_append_drop {α : Type} [BEq α] [LawfulBEq α] :
    ∀ (l₁ l₂ : List α), l₁.isPrefixOf l₂ = true → l₁ ++ l₂.drop l₁.length = l₂
  | [], l₂, _ => by simp
  | _ :: _, [], h => by simp [List.isPrefixOf] at h
  | a :: as, b :: bs, h => by
      have h' : (a == b) = true ∧ as.isPrefixOf bs = true := by
        simpa [List.isPrefixOf, Bool.and_eq_true] using h
      have hab : a = b := eq_of_beq h'.1
      simp [hab, isPrefixOf_append_drop as bs h'.2]

theorem slice_shift (t : List Char) (rp a b : Nat) :
    slice t (rp + a) (rp + b) = slice (t.drop rp) a b := by
  simp [slice, List.drop_drop, Nat.add_sub_add_left]

theorem slice_append_of_le (t d : List Char) (a b : Nat) (hb : b ≤ t.length) :
    slice (t ++ d) a b = slice t a b := by
  rcases le_or_lt a t.length with ha | ha
  · rw [slice, slice, List.drop_append_eq_append_drop,
      Nat.sub_eq_zero_of_le ha, List.drop_zero,
      List.take_append_of_le_length]
    rw [List.length_drop]
    omega
  · have hba : b - a = 0 := by omega
    simp [slice, hba]

theorem take_rollback_flatten (pts : List (List Nat)) (s : Nat) :
    pts.flatten.take (pts.flatten.length - ((pts.drop s).map List.length).sum)
      = (pts.take s).flatten := by
  have h : pts.flatten = (pts.take s).flatten ++ (pts.drop s).flatten := by
    rw [← List.flatten_append, List.take_append_drop]
  rw [← List.length_flatten, h, List.length_append, Nat.add_sub_cancel,
    List.take_left]

theorem strongInv_reset (enc : Encoder) (k : Nat) (t : List Char) :
    StrongInv enc (AppendOnlyPieceTokenCache.reset enc k t) := by
  refine ⟨reset_pieces enc k t, ?_, ?_⟩
  · rw [reset_piece_tokens, reset_pieces, reset_text]
  · rw [reset_tokens, reset_piece_tokens]

theorem weakInv_reset (enc : Encoder) (k : Nat) (t : List Char) :
    WeakInv (AppendOnlyPieceTokenCache.reset enc k t) := by
  refine ⟨?_, ?_⟩
  · rw [reset_tokens, reset_piece_tokens]
  · rw [reset_pieces, reset_piece_tokens, List.length_map]

theorem strongInv_append (enc : Encoder) (st : CacheState) (delta : List Char)
    (hwf : SpansWF enc) (hag : AgreesAt enc st.backtrack_pieces)
    (hinv : StrongInv enc st) :
    StrongInv enc
      ((AppendOnlyPieceTokenCache.append_ordinary enc st delta).1) := by
  obtain ⟨h2, h5, h1⟩ := hinv
  by_cases hd : delta = []
  · subst hd; rw [append_empty_delta]; exact ⟨h2, h5, h1⟩
  by_cases hp : st.pieces = []
  · rw [append_no_pieces enc st delta hd hp]
    exact strongInv_reset enc st.backtrack_pieces (st.text ++ delta)
  · rw [append_populated enc st delta hd hp]
    have hpslen : enc.finditer st.text ≠ [] := h2 ▸ hp
    have hagX := hag st.text delta hd hpslen
    rw [← h2] at hagX
    simp only [appendPopulated, StrongInv]
    refine ⟨hagX.symm, ?_, ?_⟩
    · rw [List.map_append]
      congr 1
      · rw [h5, ← List.map_take]
        apply List.map_congr_left
        intro m hm
        have hmem : m ∈ st.pieces := List.mem_of_mem_take hm
        have hwfm := hwf st.text m (h2 ▸ hmem)
        unfold encPiece
        rw [slice_append_of_le st.text delta m.1 m.2 hwfm.2]
      · rw [List.map_map]
        apply List.map_congr_left
        intro m _
        simp only [Function.comp]
        unfold encPiece
        rw [slice_shift]
    · rw [List.flatten_append]
      congr 1
      rw [h1, rollbackOf]
      exact take_rollback_flatten st.piece_tokens
        (startIdx st.backtrack_pieces st.pieces)

theorem weakInv_append (enc : Encoder) (st : CacheState) (delta : List Char)
    (hinv : WeakInv st) :
    WeakInv ((AppendOnlyPieceTokenCache.append_ordinary enc st delta).1) := by
  obtain ⟨h1, h4⟩ := hinv
  by_cases hd : delta = []
  · subst hd; rw [append_empty_delta]; exact ⟨h1, h4⟩
  by_cases hp : st.pieces = []
  · rw [append_no_pieces enc st delta hd hp]
    exact weakInv_reset enc st.backtrack_pieces (st.text ++ delta)
  · rw [append_populated enc st delta hd hp]
    simp only [appendPopulated, WeakInv]
    constructor
    · rw [List.flatten_append]
      congr 1
      rw [h1, rollbackOf]
      exact take_rollback_flatten st.piece_tokens
        (startIdx st.backtrack_pieces st.pieces)
    · simp [List.length_append, List.length_take, List.length_map, h4]

theorem backtrack_append (enc : Encoder) (st : CacheState) (delta : List Char) :
    ((AppendOnlyPieceTokenCache.append_ordinary enc st delta).1).backtrack_pieces
      = st.backtrack_pieces := by
  by_cases hd : delta = []
  · subst hd; rw [append_empty_delta]
  by_cases hp : st.pieces = []
  · rw [append_no_pieces enc st delta hd hp]; rfl
  · rw [append_populated enc st delta hd hp]; rfl

theorem append_text (enc : Encoder) (st : CacheState) (delta : List Char) :
    ((AppendOnlyPieceTokenCache.append_ordinary enc st delta).1).text
      = st.text ++ delta := by
  by_cases hd : delta = []
  · subst hd; rw [append_empty_delta]; simp
  by_cases hp : st.pieces = []
  · rw [append_no_pieces enc st delta hd hp]; rfl
  · rw [append_populated enc st delta hd hp]; rfl

theorem runAppends_text (enc : Encoder) :
    ∀ (ds : List (List Char)) (st : CacheState),
      (runAppends enc st ds).text = st.text ++ ds.flatten := by
  intro ds
  induction ds with
  | nil => intro st; simp [runAppends]
  | cons d ds ih =>
      intro st
      have hstep : runAppends enc st (d :: ds)
          = runAppends enc
              ((AppendOnlyPieceTokenCache.append_ordinary enc st d).1) ds := by
        simp [runAppends]
      rw [hstep, ih, append_text]
      simp [List.append_assoc]

theorem runAppends_eq_runOps (enc : Encoder) (st : CacheState)
    (ds : List (List Char)) :
    runAppends enc st ds = runOps enc st (ds.map Op.doAppend) := by
  rw [runOps, List.foldl_map]
  rfl

theorem strongInv_runOps (enc : Encoder) (k : Nat)
    (hwf : SpansWF enc) (hag : AgreesAt enc k) :
    ∀ (ops : List Op) (st : CacheState),
      st.backtrack_pieces = k → StrongInv enc st →
      StrongInv enc (runOps enc st ops)
        ∧ (runOps enc st ops).backtrack_pieces = k := by
  intro ops
  induction ops with
  | nil => intro st hb hi; exact ⟨hi, hb⟩
  | cons op ops ih =>
      intro st hb hi
      have hstep : StrongInv enc (runOp enc st op) := by
        cases op with
        | doReset t => exact strongInv_reset enc st.backtrack_pieces t
        | doAppend d =>
            refine strongInv_append enc st d hwf ?_ hi
            rw [hb]; exact hag
      have hbt : (runOp enc st op).backtrack_pieces = k := by
        cases op with
        | doReset t => simpa [runOp, reset_backtrack] using hb
        | doAppend d =>
            show ((AppendOnlyPieceTokenCache.append_ordinary enc st d).1).backtrack_pieces = k
            rw [backtrack_append]; exact hb
      have hrec := ih (runOp enc st op) hbt hstep
      simpa [runOps, List.foldl_cons] using hrec

theorem weakInv_runOps (enc : Encoder) :
    ∀ (ops : List Op) (st : CacheState),
      WeakInv st → WeakInv (runOps enc st ops) := by
  intro ops
  induction ops with
  | nil => intro st hi; exact hi
  | cons op ops ih =>
      intro st hi
      have hstep : WeakInv (runOp enc st op) := by
        cases op with
        | doReset t => exact weakInv_reset enc st.backtrack_pieces t
        | doAppend d => exact weakInv_append enc st d hi
      have hrec := ih (runOp enc st op) hstep
      simpa [runOps, List.foldl_cons] using hrec

/-- P3 for a state satisfying the strong invariant, given the piecewise
encoder contract. -/
theorem strongInv_tokens_eq_encode (enc : Encoder) (st : CacheState)
    (hpc : PiecewiseConsistent enc) (hinv : StrongInv enc st) :
    st.tokens = enc.encode_ordinary st.text := by
  obtain ⟨h2, h5, h1⟩ := hinv
  rw [h1, h5, h2, hpc st.text]

theorem wholeEnc_spansWF : SpansWF wholeEnc := by
  intro t m hm
  by_cases ht : t = []
  · simp [wholeEnc, wholeFinditer, ht] at hm
  · simp [wholeEnc, wholeFinditer, ht] at hm
    subst hm
    simp

theorem wholeEnc_piecewise : PiecewiseConsistent wholeEnc := fun _ => rfl

theorem letterEnc_split_compatible (E : List Char) :
    letterEnc.encode_ordinary (['a', 'b'] ++ E)
      = letterEnc.encode_with_unstable ['a', 'b']
        ++ letterEnc.encode_ordinary
          ((['a', 'b']).drop
              (letterEnc.decode
                (letterEnc.encode_with_unstable ['a', 'b'])).length ++ E) := rfl

theorem wholeEnc_agreesAt (k : Nat) (hk : 1 ≤ k) : AgreesAt wholeEnc k := by
  intro text delta hd hne
  have ht : text ≠ [] := by
    intro h
    apply hne
    simp [wholeEnc, wholeFinditer, h]
  have h1 : wholeEnc.finditer text = [(0, text.length)] := by
    simp [wholeEnc, wholeFinditer, ht]
  have hsi : startIdx k [((0 : Nat), text.length)] = 0 := by
    simp [startIdx]
    omega
  have hrs : reprocessStart k [((0 : Nat), text.length)] = 0 := by
    rw [reprocessStart, hsi]
    rfl
  rw [h1, hsi, hrs]
  simp

/-- Extract the post-construction state of a successful `mk`. -/
theorem mk_ok_eq_reset (enc : Encoder) (I : List Char) (k : Nat)
    (st : CacheState)
    (hmk : AppendOnlyPieceTokenCache.mk enc I k = Except.ok st) :
    st = AppendOnlyPieceTokenCache.reset enc k I := by
  unfold AppendOnlyPieceTokenCache.mk at hmk
  split at hmk
  · simp at hmk
  · exact (Except.ok.inj hmk).symm

/-- A successful `mk` implies `backtrack_pieces ≥ 1`. -/
theorem mk_ok_le (enc : Encoder) (I : List Char) (k : Nat) (st : CacheState)
    (hmk : AppendOnlyPieceTokenCache.mk enc I k = Except.ok st) : 1 ≤ k := by
  unfold AppendOnlyPieceTokenCache.mk at hmk
  split at hmk
  · simp at hmk
  · rename_i h
    omega

/-! The claims.  Each claim of the specification audit gets exactly one
theorem below, preceded by a counterexample theorem when the claim fails as
stated, and followed by a closed witness theorem when it has hypotheses. -/

/-- Claim C5: `stable_split_for_text` fails (with the stable-split mismatch
error) exactly when the decoded stable tokens are not a character prefix of
the input text; on success the returned triple carries the tokens from
`encode_with_unstable`, `stable_text = decode(stable_tokens)`, and
`stable_text ++ unstable_text = text` — the construction invariant of the
fixed-prefix cache. -/
theorem C5_stable_split_contract (enc : Encoder) (text : List Char) :
    (stable_split_for_text enc text = Except.error stableSplitMismatchMsg
        ↔ ¬ (enc.decode (enc.encode_with_unstable text)).isPrefixOf text
              = true) ∧
    (∀ sp : StableSplit, stable_split_for_text enc text = Except.ok sp →
        sp.stable_tokens = enc.encode_with_unstable text ∧
        sp.stable_text = enc.decode sp.stable_tokens ∧
        sp.stable_text ++ sp.unstable_text = text) := by
  constructor
  · unfold stable_split_for_text
    by_cases hb : (enc.decode (enc.encode_with_unstable text)).isPrefixOf text
        = true
    · simp [hb]
    · simp [hb]
  · intro sp hsp
    unfold stable_split_for_text at hsp
    by_cases hb : (enc.decode (enc.encode_with_unstable text)).isPrefixOf text
        = true
    · simp only [hb, if_true] at hsp
      have h := Except.ok.inj hsp
      rw [← h]
      refine ⟨rfl, rfl, ?_⟩
      exact isPrefixOf_append_drop _ text hb
    · simp [hb] at hsp

/-- Witness for C5: the toy letter encoder on the text `"ab"` splits
successfully and the theorem yields the three success properties there. -/
theorem C5_witness :
    stable_split_for_text letterEnc ['a', 'b'] = Except.ok c5sp ∧
    (c5sp.stable_tokens = letterEnc.encode_with_unstable ['a', 'b'] ∧
     c5sp.stable_text = letterEnc.decode c5sp.stable_tokens ∧
     c5sp.stable_text ++ c5sp.unstable_text = ['a', 'b']) :=
  ⟨rfl, (C5_stable_split_contract letterEnc ['a', 'b']).2 c5sp rfl⟩

/-- Claim C6: construction of the append-only cache fails with the
invalid-argument error exactly when `backtrack_pieces < 1`; for every
`backtrack_pieces ≥ 1` and every initial text it succeeds, leaving the cache
in the state `reset(initial_text)` produces. -/
theorem C6_construction (enc : Encoder) (t : List Char) (k : Nat) :
    (AppendOnlyPieceTokenCache.mk enc t k = Except.error invalidBacktrackMsg
        ↔ k < 1) ∧
    (1 ≤ k →
      AppendOnlyPieceTokenCache.mk enc t k
        = Except.ok (AppendOnlyPieceTokenCache.reset enc k t)) := by
  constructor
  · unfold AppendOnlyPieceTokenCache.mk
    split
    · rename_i h
      simp [h]
    · rename_i h
      simp [h]
  · intro hk
    unfold AppendOnlyPieceTokenCache.mk
    rw [if_neg (by omega)]

/-- Witness for C6: `backtrack_pieces = 0` is rejected and
`backtrack_pieces = 2` constructs the reset state, on a concrete encoder. -/
theorem C6_witness :
    AppendOnlyPieceTokenCache.mk wholeEnc ['a'] 0
        = Except.error invalidBacktrackMsg ∧
    AppendOnlyPieceTokenCache.mk wholeEnc ['a'] 2
        = Except.ok (AppendOnlyPieceTokenCache.reset wholeEnc 2 ['a']) :=
  ⟨(C6_construction wholeEnc ['a'] 0).1.mpr (by omega),
   (C6_construction wholeEnc ['a'] 2).2 (by omega)⟩

/-- Claim C7: in every cache state, appending the empty delta returns
`TokenDelta{rollback_tokens := 0, tokens_to_append := []}` and leaves every
field of the state identical. -/
theorem C7_empty_append_noop (enc : Encoder) (st : CacheState) :
    AppendOnlyPieceTokenCache.append_ordinary enc st []
      = (st, { rollback_tokens := 0, tokens_to_append := [] }) :=
  append_empty_delta enc st

/-- Claim C9: every append returns a `rollback_tokens` between 0 (it is a
`Nat`) and the pre-call token count, provided the pre-call state satisfies
P1 (as every reachable state does); in the populated state it equals the
total token count of the last `min(backtrack_pieces, len(pieces))` pieces. -/
theorem C9_rollback_bounds (enc : Encoder) (st : CacheState)
    (delta : List Char) (_hk : 1 ≤ st.backtrack_pieces)
    (hP1 : st.tokens = st.piece_tokens.flatten) :
    ((AppendOnlyPieceTokenCache.append_ordinary enc st delta).2).rollback_tokens
        ≤ st.tokens.length ∧
    (delta ≠ [] → st.pieces ≠ [] →
      ((AppendOnlyPieceTokenCache.append_ordinary enc st delta).2).rollback_tokens
        = ((st.piece_tokens.drop
              (st.pieces.length
                - min st.backtrack_pieces st.pieces.length)).map
            List.length).sum) := by
  by_cases hd : delta = []
  · subst hd
    rw [append_empty_delta]
    exact ⟨Nat.zero_le _, fun h => absurd rfl h⟩
  by_cases hp : st.pieces = []
  · rw [append_no_pieces enc st delta hd hp]
    exact ⟨le_refl _, fun _ hp' => absurd hp hp'⟩
  · rw [append_populated enc st delta hd hp]
    dsimp only [appendPopulated]
    constructor
    · rw [hP1, List.length_flatten, rollbackOf, startIdx]
      have hsplit := List.take_append_drop
        (st.pieces.length - min st.backtrack_pieces st.pieces.length)
        (st.piece_tokens.map List.length)
      calc ((st.piece_tokens.drop
              (st.pieces.length
                - min st.backtrack_pieces st.pieces.length)).map
            List.length).sum
          = ((st.piece_tokens.map List.length).drop
              (st.pieces.length
                - min st.backtrack_pieces st.pieces.length)).sum := by
            rw [List.map_drop]
        _ ≤ ((st.piece_tokens.map List.length).take
              (st.pieces.length
                - min st.backtrack_pieces st.pieces.length)).sum
            + ((st.piece_tokens.map List.length).drop
              (st.pieces.length
                - min st.backtrack_pieces st.pieces.length)).sum :=
            Nat.le_add_left _ _
        _ = (st.piece_tokens.map List.length).sum := by
            rw [← List.sum_append, hsplit]
    · intro _ _
      rw [rollbackOf, startIdx]

/-- Witness for C9 at the populated two-piece cache `badState0` and a
one-character delta. -/
theorem C9_witness :
    (1 ≤ badState0.backtrack_pieces ∧
     badState0.tokens = badState0.piece_tokens.flatten) ∧
    ((AppendOnlyPieceTokenCache.append_ordinary badEnc badState0
        ['a']).2).rollback_tokens ≤ badState0.tokens.length :=
  ⟨⟨by decide, by decide⟩,
   (C9_rollback_bounds badEnc badState0 ['a'] (by decide) (by decide)).1⟩

/-- Claim C10: for every append in every state, the pre-call tokens with the
last `rollback_tokens` entries removed, extended with `tokens_to_append`,
equal the post-call tokens: the returned `TokenDelta` reproduces the cache's
own post-append token stream exactly, with no backtrack-sufficiency
assumption (`backtrack_pieces ≥ 1` is what construction guarantees). -/
theorem C10_delta_consistency (enc : Encoder) (st : CacheState)
    (delta : List Char) (_hk : 1 ≤ st.backtrack_pieces) :
    ((AppendOnlyPieceTokenCache.append_ordinary enc st delta).1).tokens
      = st.tokens.take (st.tokens.length
            - ((AppendOnlyPieceTokenCache.append_ordinary enc st
                  delta).2).rollback_tokens)
        ++ ((AppendOnlyPieceTokenCache.append_ordinary enc st
              delta).2).tokens_to_append := by
  by_cases hd : delta = []
  · subst hd
    rw [append_empty_delta]
    simp [List.take_length]
  by_cases hp : st.pieces = []
  · rw [append_no_pieces enc st delta hd hp]
    simp
  · rw [append_populated enc st delta hd hp]
    dsimp only [appendPopulated]

/-- Witness for C10 at the populated cache `badState0` (where the delta in
fact disagrees with a cold re-tokenization, yet still reproduces the cache's
own stream). -/
theorem C10_witness :
    1 ≤ badState0.backtrack_pieces ∧
    ((AppendOnlyPieceTokenCache.append_ordinary badEnc badState0
        ['a']).1).tokens
      = badState0.tokens.take (badState0.tokens.length
            - ((AppendOnlyPieceTokenCache.append_ordinary badEnc badState0
                  ['a']).2).rollback_tokens)
        ++ ((AppendOnlyPieceTokenCache.append_ordinary badEnc badState0
              ['a']).2).tokens_to_append :=
  ⟨by decide, C10_delta_consistency badEnc badState0 ['a'] (by decide)⟩

/-- Claim C4: invariants P1 (`tokens = concat(piece_tokens)`) and P4
(`len(pieces) = len(piece_tokens)`) hold after construction and after every
sequence of public `reset` / `append` calls, with no assumption on the
encoder or on the sufficiency of `backtrack_pieces`. -/
theorem C4_weak_invariants (enc : Encoder) (I : List Char) (k : Nat)
    (st : CacheState) (ops : List Op)
    (hmk : AppendOnlyPieceTokenCache.mk enc I k = Except.ok st) :
    (runOps enc st ops).tokens = (runOps enc st ops).piece_tokens.flatten ∧
    (runOps enc st ops).pieces.length
      = (runOps enc st ops).piece_tokens.length := by
  have hst := mk_ok_eq_reset enc I k st hmk
  subst hst
  exact weakInv_runOps enc ops _ (weakInv_reset enc k I)

/-- Witness for C4 over the adversarial encoder with a mixed append / reset
/ append call sequence. -/
theorem C4_witness :
    AppendOnlyPieceTokenCache.mk badEnc ['a', 'b'] 1 = Except.ok badState0 ∧
    ((runOps badEnc badState0 wOps).tokens
        = (runOps badEnc badState0 wOps).piece_tokens.flatten ∧
     (runOps badEnc badState0 wOps).pieces.length
        = (runOps badEnc badState0 wOps).piece_tokens.length) :=
  ⟨rfl, C4_weak_invariants badEnc ['a', 'b'] 1 badState0 wOps rfl⟩

/-- Counterexample to claim C2 as stated: the claim quantifies over *every*
`backtrack_pieces` value with no backtrack-sufficiency assumption, but with
`backtrack_pieces = 1` over the (piecewise-consistent) alternation encoder
`badEnc`, constructing on `"ab"` and appending `"a"` leaves a state where
neither P2 nor P3 holds: the stored pieces `[(0,1),(1,2),(2,3)]` differ from
the cold segmentation `[(0,3)]` of `"aba"`, and the stored tokens differ
from `encode_ordinary("aba")`. -/
theorem C2_counterexample :
    AppendOnlyPieceTokenCache.mk badEnc ['a', 'b'] 1 = Except.ok badState0 ∧
    PiecewiseConsistent badEnc ∧
    ¬ (badState1.pieces = badEnc.finditer badState1.text ∧
       badState1.tokens = badEnc.encode_ordinary badState1.text) :=
  ⟨rfl, fun _ => rfl, by decide⟩

/-- Claim C2 (amended): invariants P2 and P3 hold after construction and
after every sequence of public calls *provided* the encoder has well-formed
match spans, `encode_ordinary` is piecewise-consistent, and
`backtrack_pieces` is sufficient for the encoder's pre-tokenizer (the
backtrack assumption of spec §4.4, formalized as `AgreesAt`); without the
backtrack assumption the claim fails, see the counterexample. -/
theorem C2_invariants_amended (enc : Encoder) (I : List Char) (k : Nat)
    (st : CacheState) (ops : List Op)
    (hwf : SpansWF enc) (hag : AgreesAt enc k)
    (hpc : PiecewiseConsistent enc)
    (hmk : AppendOnlyPieceTokenCache.mk enc I k = Except.ok st) :
    (runOps enc st ops).pieces = enc.finditer (runOps enc st ops).text ∧
    (runOps enc st ops).tokens
      = enc.encode_ordinary (runOps enc st ops).text := by
  have hst := mk_ok_eq_reset enc I k st hmk
  subst hst
  have h := strongInv_runOps enc k hwf hag ops _
    (reset_backtrack enc k I) (strongInv_reset enc k I)
  exact ⟨h.1.1, strongInv_tokens_eq_encode enc _ hpc h.1⟩

/-- Witness for the amended C2: the benign whole-text encoder with
`backtrack_pieces = 1` and a mixed append / reset / append sequence. -/
theorem C2_witness :
    (SpansWF wholeEnc ∧ AgreesAt wholeEnc 1 ∧ PiecewiseConsistent wholeEnc ∧
     AppendOnlyPieceTokenCache.mk wholeEnc ['a', 'b'] 1
        = Except.ok wState0) ∧
    ((runOps wholeEnc wState0 wOps).pieces
        = wholeEnc.finditer (runOps wholeEnc wState0 wOps).text ∧
     (runOps wholeEnc wState0 wOps).tokens
        = wholeEnc.encode_ordinary (runOps wholeEnc wState0 wOps).text) :=
  ⟨⟨wholeEnc_spansWF, wholeEnc_agreesAt 1 (by omega), wholeEnc_piecewise,
    rfl⟩,
   C2_invariants_amended wholeEnc ['a', 'b'] 1 wState0 wOps
     wholeEnc_spansWF (wholeEnc_agreesAt 1 (by omega)) wholeEnc_piecewise
     rfl⟩

/-- Claim C3: when `backtrack_pieces` is sufficient for the encoder (the
backtrack assumption `AgreesAt`, together with the encoder contract: spans
well-formed, `encode_ordinary` piecewise), then after constructing on `I`
and appending `d₁ … dₙ`, the cache's tokens equal
`encode_ordinary(I ++ d₁ ++ … ++ dₙ)` — so applying each returned delta
reproduces the cold tokenization of the grown text. -/
theorem C3_append_sequence (enc : Encoder) (I : List Char) (k : Nat)
    (st : CacheState) (ds : List (List Char))
    (hwf : SpansWF enc) (hag : AgreesAt enc k)
    (hpc : PiecewiseConsistent enc)
    (hmk : AppendOnlyPieceTokenCache.mk enc I k = Except.ok st) :
    (runAppends enc st ds).tokens
      = enc.encode_ordinary (I ++ ds.flatten) := by
  have hst := mk_ok_eq_reset enc I k st hmk
  subst hst
  have htext : (runAppends enc (AppendOnlyPieceTokenCache.reset enc k I)
      ds).text = I ++ ds.flatten := by
    rw [runAppends_text, reset_text]
  have h := strongInv_runOps enc k hwf hag (ds.map Op.doAppend) _
    (reset_backtrack enc k I) (strongInv_reset enc k I)
  rw [runAppends_eq_runOps] at htext
  rw [runAppends_eq_runOps, strongInv_tokens_eq_encode enc _ hpc h.1, htext]

/-- Witness for C3: two appends over the benign whole-text encoder yield the
cold tokenization of `"abcd"`. -/
theorem C3_witness :
    (SpansWF wholeEnc ∧ AgreesAt wholeEnc 1 ∧ PiecewiseConsistent wholeEnc ∧
     AppendOnlyPieceTokenCache.mk wholeEnc ['a', 'b'] 1
        = Except.ok wState0) ∧
    (runAppends wholeEnc wState0 [['c'], ['d']]).tokens
      = wholeEnc.encode_ordinary (['a', 'b'] ++ [['c'], ['d']].flatten) :=
  ⟨⟨wholeEnc_spansWF, wholeEnc_agreesAt 1 (by omega), wholeEnc_piecewise,
    rfl⟩,
   C3_append_sequence wholeEnc ['a', 'b'] 1 wState0 [['c'], ['d']]
     wholeEnc_spansWF (wholeEnc_agreesAt 1 (by omega)) wholeEnc_piecewise
     rfl⟩

/-- Claim C8: appending a non-empty delta to a cache built from the empty
text (so its pieces are empty, the regex matching nothing in the empty
string) returns rollback 0 and `tokens_to_append = encode_ordinary` of the
new full text, the encoder being piecewise-consistent. -/
theorem C8_cold_start_append (enc : Encoder) (k : Nat) (delta : List Char)
    (hfi : enc.finditer [] = []) (hpc : PiecewiseConsistent enc)
    (hd : delta ≠ []) :
    (AppendOnlyPieceTokenCache.append_ordinary enc
        (AppendOnlyPieceTokenCache.reset enc k []) delta).2
      = { rollback_tokens := 0,
          tokens_to_append := enc.encode_ordinary delta } := by
  have hp : (AppendOnlyPieceTokenCache.reset enc k []).pieces = [] := by
    rw [reset_pieces, hfi]
  rw [append_no_pieces enc (AppendOnlyPieceTokenCache.reset enc k []) delta
    hd hp]
  dsimp only
  congr 1
  · rw [reset_tokens, hfi]
    rfl
  · rw [reset_tokens, reset_text, List.nil_append]
    exact (hpc delta).symm

/-- Witness for C8: `AppendOnlyPieceCache("", 2).append("hello world")` over
the benign whole-text encoder yields rollback 0 and the cold tokens of
`"hello world"`. -/
theorem C8_witness :
    (wholeEnc.finditer [] = [] ∧ PiecewiseConsistent wholeEnc ∧
     "hello world".toList ≠ ([] : List Char)) ∧
    (AppendOnlyPieceTokenCache.append_ordinary wholeEnc
        (AppendOnlyPieceTokenCache.reset wholeEnc 2 [])
        "hello world".toList).2
      = { rollback_tokens := 0,
          tokens_to_append :=
            wholeEnc.encode_ordinary "hello world".toList } :=
  ⟨⟨rfl, wholeEnc_piecewise, by decide⟩,
   C8_cold_start_append wholeEnc 2 "hello world".toList rfl
     wholeEnc_piecewise (by decide)⟩

/-- Counterexample to claim C1 as stated: the encoder `c1Enc` on the text
`"aaa"` satisfies the claim's hypothesis — its stable tokens `[7]` are a
token prefix of `encode_ordinary("aaa" ++ E)` for every extension `E` — and
construction of the fixed-prefix cache succeeds, yet already at the empty
suffix the cache answers `[7, 7, 7, 9]` while `encode_ordinary("aaa")` is
`[7, 7, 7]`: the token-prefix form of the stable-split guarantee is too weak
to imply T1. -/
theorem C1_counterexample :
    (∀ E : List Char, ∃ rest : List Nat,
        c1Enc.encode_with_unstable ['a', 'a', 'a'] ++ rest
          = c1Enc.encode_ordinary (['a', 'a', 'a'] ++ E)) ∧
    FixedPrefixTokenCache.make c1Enc ['a', 'a', 'a'] = Except.ok c1Cache ∧
    FixedPrefixTokenCache.encode_ordinary c1Enc c1Cache []
      ≠ c1Enc.encode_ordinary (['a', 'a', 'a'] ++ []) := by
  refine ⟨?_, rfl, by decide⟩
  intro E
  refine ⟨List.replicate (2 + E.length) 7, ?_⟩
  have hlen : (['a', 'a', 'a'] ++ E).length = 3 + E.length := by
    simp
    omega
  have hrep : List.replicate (3 + E.length) 7
      = 7 :: List.replicate (2 + E.length) 7 := by
    rw [show 3 + E.length = (2 + E.length) + 1 by omega, List.replicate_succ]
  have hewu : c1Enc.encode_with_unstable ['a', 'a', 'a'] = [7] := rfl
  have heo : c1Enc.encode_ordinary (['a', 'a', 'a'] ++ E)
      = List.replicate (3 + E.length) 7 := by
    show (if (['a', 'a', 'a'] ++ E).length = 2 then [7, 7, 9]
        else List.replicate (['a', 'a', 'a'] ++ E).length 7)
      = List.replicate (3 + E.length) 7
    rw [hlen, if_neg (by omega)]
  rw [hewu, heo, hrep]
  rfl

/-- Claim C1 (amended): the token-prefix form of the stable-split guarantee
is not enough (see the counterexample); under the split-decomposition form
the spec's correctness rationale actually uses — for every extension `E`,
`encode_ordinary(P ++ E) = stable_tokens ++ encode_ordinary(unstable ++ E)`,
with `stable_tokens = encode_with_unstable(P)` and `unstable` the remainder
of `P` after the decoded stable text — every successfully constructed
`FixedPrefixTokenCache(P)` satisfies
`encode_ordinary(S) = encoder.encode_ordinary(P ++ S)` for every suffix. -/
theorem C1_fixed_prefix_amended (enc : Encoder) (P S : List Char)
    (c : FixedPrefixTokenCache)
    (hsplit : ∀ E : List Char,
      enc.encode_ordinary (P ++ E)
        = enc.encode_with_unstable P
          ++ enc.encode_ordinary
            (P.drop (enc.decode (enc.encode_with_unstable P)).length ++ E))
    (hmk : FixedPrefixTokenCache.make enc P = Except.ok c) :
    FixedPrefixTokenCache.encode_ordinary enc c S
      = enc.encode_ordinary (P ++ S) := by
  unfold FixedPrefixTokenCache.make stable_split_for_text at hmk
  by_cases hb : (enc.decode (enc.encode_with_unstable P)).isPrefixOf P = true
  · simp only [hb, if_true, Except.map] at hmk
    have hc := Except.ok.inj hmk
    rw [← hc]
    unfold FixedPrefixTokenCache.encode_ordinary
      FixedPrefixTokenCache.encode_ordinary_tail
    exact (hsplit S).symm
  · simp [hb, Except.map] at hmk

/-- Witness for the amended C1: the honest letter encoder on `P = "ab"`,
`S = "z"` (its stable split withholds the final token, and its
`encode_ordinary` is split-compatible). -/
theorem C1_witness :
    ((∀ E : List Char,
        letterEnc.encode_ordinary (['a', 'b'] ++ E)
          = letterEnc.encode_with_unstable ['a', 'b']
            ++ letterEnc.encode_ordinary
              ((['a', 'b']).drop
                  (letterEnc.decode
                    (letterEnc.encode_with_unstable
                      ['a', 'b'])).length ++ E)) ∧
     FixedPrefixTokenCache.make letterEnc ['a', 'b'] = Except.ok c1wCache) ∧
    FixedPrefixTokenCache.encode_ordinary letterEnc c1wCache ['z']
      = letterEnc.encode_ordinary (['a', 'b'] ++ ['z']) :=
  ⟨⟨letterEnc_split_compatible, rfl⟩,
   C1_fixed_prefix_amended letterEnc ['a', 'b'] ['z'] c1wCache
     letterEnc_split_compatible rfl⟩

end FlashToken
